import Mathlib

/-!
Verification of the connectivity truth-table engine of the network-policy-api
policy assistant (package `probe` and the surrounding `connectivity` package).

The Go source in `pkg/connectivity/probe/table.go` (the `Item`/`Table` matrix,
`setCombined`, `SetIngress`/`SetEgress`, the render dispatch) and
`pkg/connectivity/result.go` (`Result.ResultsByProtocol`, `Result.Passed`) is
embedded shallowly below.  Go maps (`map[string]*JobResult`) are embedded as
association lists with unique keys; in-place mutation through pointers becomes
functional update; `panic` becomes an `Option` result (`none` = fatal
termination); a Go `error` return becomes an `Option String` (`some` = error).
Types used by that code whose definitions live elsewhere in the repository
(`Connectivity`, `TruthTable`, `Resources`, `JobResult.Key`, `StepResult`) are
modelled from the specification, each marked `Modelled from the spec:`.
-/

namespace Probe

/-- Modelled from the spec: the tri-state connectivity value
{Allowed, Denied/Blocked, Undefined}; `Undefined` is the default value absent
evidence (the Go zero value).  The type `Connectivity` is declared outside the
sampled source files. -/
inductive Connectivity where
  | undefined
  | blocked
  | allowed
deriving DecidableEq, Fintype

/-- Go `Job` struct: the immutable identity of one probe
(from, to, port, port name, protocol, timeout). -/
structure Job where
  FromKey : String
  ToKey : String
  ResolvedPort : Nat
  ResolvedPortName : String
  Protocol : String
  TimeoutSeconds : Nat
deriving DecidableEq

/-- Go `JobResult`: a `Job` plus the expected ingress/egress legs (pointers in
Go, hence `Option`: `none` models a nil pointer) and the combined verdict
(a plain value whose zero value is `Undefined`). -/
structure JobResult where
  Job : Job
  Ingress : Option Connectivity
  Egress : Option Connectivity
  Combined : Connectivity
deriving DecidableEq

/-- Association-list embedding of a Go map lookup `m[k]`. -/
def lookupKV {α β : Type} [DecidableEq α] : List (α × β) → α → Option β
  | [], _ => none
  | (k, v) :: rest, k2 => if k = k2 then some v else lookupKV rest k2

/-- Association-list embedding of a Go map write `m[k] = v`: replaces the
binding when the key is present, otherwise appends a new binding. -/
def insertKV {α β : Type} [DecidableEq α] (m : List (α × β)) (k : α) (v : β) :
    List (α × β) :=
  if (lookupKV m k).isSome then
    m.map (fun e => if e.1 = k then (k, v) else e)
  else
    m ++ [(k, v)]

/-- The `"<protocol>/<port>"` key (`fmt.Sprintf("%s/%d", proto, port)`). -/
def protoPortKey (proto : String) (port : Nat) : String :=
  proto ++ "/" ++ toString port

/-- Go `Item`: one cell of the probe matrix. -/
structure Item where
  From : String
  To : String
  JobResults : List (String × JobResult)
deriving DecidableEq

/-- Modelled from the spec: `JobResult.Key()` (declared outside the sampled
files) returns the `"<protocol>/<port>"` key of the job. -/
def JobResult.Key (jr : JobResult) : String :=
  protoPortKey jr.Job.Protocol jr.Job.ResolvedPort

/-- Go `Item.AddJobResult`: returns (error, state of the Item afterwards).
If the key already exists it returns an error and the Item is untouched;
otherwise it writes the new binding and returns no error. -/
def Item.AddJobResult (p : Item) (jr : JobResult) : Option String × Item :=
  if (lookupKV p.JobResults jr.Key).isSome then
    (some ("unable to add job result: duplicate key " ++ jr.Key), p)
  else
    (none, { p with JobResults := p.JobResults ++ [(jr.Key, jr)] })

/-- Modelled from the spec: the generic `TruthTable` (declared outside the
sampled files) is an ordered list of entity names and a square matrix of
payloads indexed by (row name, column name); here specialised to `Item`
payloads (Go uses `interface{}`).  Lookups with unknown names are fatal in
the original; the theorems below only address names from `Items`. -/
structure TruthTable where
  Items : List String
  Values : String → String → Item

/-- Modelled from the spec: `TruthTable.Get` retrieves the payload at a
(row, column) name pair. -/
def TruthTable.Get (tt : TruthTable) (fr toK : String) : Item :=
  tt.Values fr toK

/-- Modelled from the spec: `TruthTable.Keys` returns all ordered
(row, column) pairs, row-major over the construction order. -/
def TruthTable.Keys (tt : TruthTable) : List (String × String) :=
  tt.Items.flatMap (fun fr => tt.Items.map (fun toK => (fr, toK)))

/-- Modelled from the spec: `NewTruthTableFromItems` builds the matrix by
invoking the factory once per ordered pair of names. -/
def NewTruthTableFromItems (items : List String) (f : String → String → Item) :
    TruthTable :=
  { Items := items, Values := f }

/-- Go `Table`: wraps the generic truth table. -/
structure Table where
  Wrapped : TruthTable

def Table.Get (t : Table) (fr toK : String) : Item :=
  t.Wrapped.Get fr toK

/-- Functional update of one cell (Go mutates the shared `*Item` in place). -/
def Table.setItem (t : Table) (fr toK : String) (it : Item) : Table :=
  { Wrapped := { t.Wrapped with
      Values := fun a b => if a = fr ∧ b = toK then it else t.Wrapped.Values a b } }

/-- Modelled from the spec: `Resources` (declared outside the sampled files)
supplies the sorted pod-name list and the ports and protocols under test. -/
structure Resources where
  SortedPodNames : List String
  ports : List Nat
  protocols : List String

/-- Go `setCombined` (as a function of the two dereferenced legs and the
current combined value): two sequential `if` statements. -/
def setCombined (ingress egress combined : Connectivity) : Connectivity :=
  let c1 := if ingress = .blocked ∨ egress = .blocked then .blocked else combined
  if ingress = .allowed ∧ egress = .allowed then .allowed else c1

/-- One `JobResult` as seeded by the inner loop of
`NewTableWithDefaultConnectivity`: the supplied defaults, overwritten with
`Undefined` on both legs for a self pair, then `setCombined` applied to the
zero-valued `Combined`. -/
def mkJobResult (fr toK proto : String) (port : Nat) (ingress egress : Connectivity) :
    JobResult :=
  let i := if fr = toK then Connectivity.undefined else ingress
  let e := if fr = toK then Connectivity.undefined else egress
  { Job := { FromKey := fr, ToKey := toK, ResolvedPort := port,
             ResolvedPortName := "", Protocol := proto, TimeoutSeconds := 3 },
    Ingress := some i,
    Egress := some e,
    Combined := setCombined i e Connectivity.undefined }

/-- The map built by the two nested loops (protocols outer, ports inner) of
`NewTableWithDefaultConnectivity` for one cell. -/
def buildResults (fr toK : String) (protos : List String) (ports : List Nat)
    (ingress egress : Connectivity) : List (String × JobResult) :=
  protos.foldl (fun acc proto =>
    ports.foldl (fun acc2 port =>
      insertKV acc2 (protoPortKey proto port) (mkJobResult fr toK proto port ingress egress))
      acc) []

/-- Go `NewTableWithDefaultConnectivity`. -/
def NewTableWithDefaultConnectivity (r : Resources) (ingress egress : Connectivity) :
    Table :=
  { Wrapped := NewTruthTableFromItems r.SortedPodNames (fun fr toK =>
      { From := fr, To := toK,
        JobResults := buildResults fr toK r.protocols r.ports ingress egress }) }

/-- Go `NewTable`: every cell starts with an empty map. -/
def NewTable (items : List String) : Table :=
  { Wrapped := NewTruthTableFromItems items (fun fr toK =>
      { From := fr, To := toK, JobResults := [] }) }

/-- One step of `NewTableFromJobResults`: `table.Get(fr,to).AddJobResult(result)`
wrapped in `DoOrDie` (`none` = fatal termination on duplicate key). -/
def Table.addJobResult (t : Table) (jr : JobResult) : Option Table :=
  match (t.Get jr.Job.FromKey jr.Job.ToKey).AddJobResult jr with
  | (some _, _) => none
  | (none, item2) => some (t.setItem jr.Job.FromKey jr.Job.ToKey item2)

/-- Go `NewTableFromJobResults`. -/
def NewTableFromJobResults (r : Resources) (jobResults : List JobResult) :
    Option Table :=
  jobResults.foldlM (fun t jr => t.addJobResult jr) (NewTable r.SortedPodNames)

/-- Go `Table.SetEgress`: locate the `JobResult` under the
`"<protocol>/<port>"` key; `none` models the panic when the key is absent or
either leg pointer is nil; otherwise replace the egress leg and recompute
`Combined` via `setCombined`. -/
def Table.SetEgress (t : Table) (egress : Connectivity) (fr toK : String)
    (port : Nat) (proto : String) : Option Table :=
  let portProto := protoPortKey proto port
  match lookupKV (t.Get fr toK).JobResults portProto with
  | none => none
  | some jr =>
    match jr.Ingress, jr.Egress with
    | some i, some _ =>
      some (t.setItem fr toK { t.Get fr toK with
        JobResults := insertKV (t.Get fr toK).JobResults portProto
          { jr with Egress := some egress,
                    Combined := setCombined i egress jr.Combined } })
    | _, _ => none

/-- Go `Table.SetIngress`: symmetric to `SetEgress` on the ingress leg. -/
def Table.SetIngress (t : Table) (ingress : Connectivity) (fr toK : String)
    (port : Nat) (proto : String) : Option Table :=
  let portProto := protoPortKey proto port
  match lookupKV (t.Get fr toK).JobResults portProto with
  | none => none
  | some jr =>
    match jr.Ingress, jr.Egress with
    | some _, some e =>
      some (t.setItem fr toK { t.Get fr toK with
        JobResults := insertKV (t.Get fr toK).JobResults portProto
          { jr with Ingress := some ingress,
                    Combined := setCombined ingress e jr.Combined } })
    | _, _ => none

/-- Insertion of a string into a sorted list (`slice.Sort` helper). -/
def insortStr (a : String) : List String → List String
  | [] => [a]
  | b :: rest => if a ≤ b then a :: b :: rest else b :: insortStr a rest

/-- `slice.Sort` on the key list of a cell. -/
def sortStrings : List String → List String
  | [] => []
  | a :: rest => insortStr a (sortStrings rest)

/-- `strings.Join(slice.Sort(maps.Keys(dict)), "_")`: the schema string of one
cell used by the uniformity scan in `renderTableHelper`. -/
def schemaKey (m : List (String × JobResult)) : String :=
  String.intercalate "_" (sortStrings (m.map Prod.fst))

/-- The three layouts `renderTableHelper` dispatches to. -/
inductive RenderMode where
  | simple
  | uniformMulti
  | nonuniform
deriving DecidableEq

/-- The scanning loop of `renderTableHelper`: walks the cells in `Keys()`
order accumulating the set of schema strings; `break`s (returns) as soon as a
cell does not have exactly one element (`isSingleElement = false`) or a second
distinct schema appears (`isSchemaUniform = false`).  Returns
(isSchemaUniform, isSingleElement). -/
def scanCells : List (List (String × JobResult)) → List String → Bool × Bool
  | [], _ => (true, true)
  | dict :: rest, schema =>
    if dict.length ≠ 1 then
      (true, false)
    else
      let s := schemaKey dict
      let schema2 := if s ∈ schema then schema else s :: schema
      if schema2.length > 1 then (false, true)
      else scanCells rest schema2

/-- The cells of a table in `Keys()` (row-major) order. -/
def Table.cells (t : Table) : List (List (String × JobResult)) :=
  t.Wrapped.Keys.map (fun p => (t.Get p.1 p.2).JobResults)

/-- The layout dispatch of `renderTableHelper` (shared by `RenderTable`,
`RenderIngress` and `RenderEgress`): simple when uniform and single-element,
uniform-multi when uniform only, non-uniform otherwise.  The textual grid
production itself is delegated to the generic `TruthTable` renderer and is
not part of the dispatch. -/
def Table.renderMode (t : Table) : RenderMode :=
  match scanCells t.cells [] with
  | (true, true) => .simple
  | (true, false) => .uniformMulti
  | (false, _) => .nonuniform

/-- Modelled from the spec: one step's result, as seen by the two `Result`
methods in `pkg/connectivity/result.go`.  `LastComparisonCounts` models the
entries of `step.LastComparison().ResultsByProtocol()` (a nested
success → protocol → count map, flattened to bindings); `StepPassed` models
`step.Passed(ignoreLoopback)`.  Both are computed by comparison-table code
declared outside the sampled files. -/
structure StepResult where
  LastComparisonCounts : List ((Bool × String) × Nat)
  StepPassed : Bool → Bool

/-- Go `Result` (the fields other than `Steps` do not influence the methods
verified here). -/
structure Result where
  Steps : List StepResult

/-- One `counts[isSuccess][protocol] += count` update of the accumulator map
(an absent key reads as 0). -/
def bumpCount (acc : List ((Bool × String) × Nat)) (k : Bool × String) (c : Nat) :
    List ((Bool × String) × Nat) :=
  match lookupKV acc k with
  | some old => acc.map (fun e => if e.1 = k then (k, old + c) else e)
  | none => acc ++ [(k, c)]

/-- Go `Result.ResultsByProtocol`: sums every step's last-comparison
per-protocol counts into one success × protocol map. -/
def Result.ResultsByProtocol (r : Result) : List ((Bool × String) × Nat) :=
  r.Steps.foldl (fun acc step =>
    step.LastComparisonCounts.foldl (fun a e => bumpCount a e.1 e.2) acc) []

/-- Reading a count out of the aggregated map (an absent key is 0). -/
def countOf (m : List ((Bool × String) × Nat)) (k : Bool × String) : Nat :=
  (lookupKV m k).getD 0

/-- The loop body of `Result.Passed`: early-returns `false` at the first
failing step. -/
def passedLoop (ignoreLoopback : Bool) : List StepResult → Bool
  | [] => true
  | step :: rest =>
    if step.StepPassed ignoreLoopback then passedLoop ignoreLoopback rest
    else false

/-- Go `Result.Passed`. -/
def Result.Passed (r : Result) (ignoreLoopback : Bool) : Bool :=
  passedLoop ignoreLoopback r.Steps


/-! ### Generic association-list lemmas -/

theorem lookupKV_nil {α β : Type} [DecidableEq α] (k : α) :
    lookupKV ([] : List (α × β)) k = none := rfl

theorem lookupKV_cons {α β : Type} [DecidableEq α] (a : α) (b : β)
    (rest : List (α × β)) (k : α) :
    lookupKV ((a, b) :: rest) k = if a = k then some b else lookupKV rest k := rfl

theorem lookupKV_append {α β : Type} [DecidableEq α] (m l : List (α × β)) (k : α) :
    lookupKV (m ++ l) k =
      match lookupKV m k with
      | some v => some v
      | none => lookupKV l k := by
  induction m with
  | nil => rfl
  | cons e rest ih =>
    obtain ⟨a, b⟩ := e
    by_cases h : a = k
    · subst h
      rw [List.cons_append, lookupKV_cons, if_pos rfl, lookupKV_cons, if_pos rfl]
    · rw [List.cons_append, lookupKV_cons, if_neg h, lookupKV_cons, if_neg h, ih]

theorem lookupKV_map_replace {α β : Type} [DecidableEq α] (m : List (α × β))
    (k k2 : α) (v : β) :
    lookupKV (m.map (fun e => if e.1 = k then (k, v) else e)) k2 =
      if k = k2 then (lookupKV m k).map (fun _ => v) else lookupKV m k2 := by
  induction m with
  | nil =>
    by_cases h : k = k2
    · rw [List.map_nil, lookupKV_nil, if_pos h, lookupKV_nil]; rfl
    · rw [List.map_nil, lookupKV_nil, if_neg h]
  | cons e rest ih =>
    obtain ⟨a, b⟩ := e
    simp only [List.map_cons]
    by_cases hak : a = k
    · subst hak
      have hh : (if ((a, b) : α × β).1 = a then (a, v) else (a, b)) = (a, v) := by
        simp
      rw [hh]
      by_cases h2 : a = k2
      · subst h2
        rw [lookupKV_cons, if_pos rfl, if_pos rfl, lookupKV_cons, if_pos rfl]
        rfl
      · rw [lookupKV_cons, if_neg h2, ih, if_neg h2, if_neg h2, lookupKV_cons,
          if_neg h2]
    · have hh : (if ((a, b) : α × β).1 = k then (k, v) else (a, b)) = (a, b) := by
        simp [hak]
      rw [hh]
      by_cases h2 : a = k2
      · subst h2
        have hka : ¬ k = a := fun hc => hak hc.symm
        rw [lookupKV_cons, if_pos rfl, if_neg hka, lookupKV_cons, if_pos rfl]
      · rw [lookupKV_cons, if_neg h2, ih]
        by_cases h3 : k = k2
        · rw [if_pos h3, if_pos h3, lookupKV_cons, if_neg hak]
        · rw [if_neg h3, if_neg h3, lookupKV_cons, if_neg h2]

theorem lookupKV_insertKV_self {α β : Type} [DecidableEq α] (m : List (α × β))
    (k : α) (v : β) : lookupKV (insertKV m k v) k = some v := by
  rw [insertKV]
  split
  case isTrue hp =>
    rw [lookupKV_map_replace, if_pos rfl]
    cases hx : lookupKV m k with
    | some b => rfl
    | none => rw [hx] at hp; simp at hp
  case isFalse hp =>
    rw [lookupKV_append]
    have h0 : lookupKV m k = none := by
      cases hx : lookupKV m k with
      | none => rfl
      | some v2 => rw [hx] at hp; simp at hp
    rw [h0]
    show lookupKV [(k, v)] k = some v
    rw [lookupKV_cons, if_pos rfl]

theorem lookupKV_insertKV_other {α β : Type} [DecidableEq α] (m : List (α × β))
    (k k2 : α) (v : β) (hne : k2 ≠ k) :
    lookupKV (insertKV m k v) k2 = lookupKV m k2 := by
  rw [insertKV]
  split
  case isTrue hp =>
    rw [lookupKV_map_replace, if_neg (fun hc => hne hc.symm)]
  case isFalse hp =>
    rw [lookupKV_append]
    cases hx : lookupKV m k2 with
    | some b => rfl
    | none =>
      show lookupKV [(k, v)] k2 = none
      rw [lookupKV_cons, if_neg (fun hc => hne hc.symm), lookupKV_nil]

theorem lookupKV_mem {α β : Type} [DecidableEq α] {m : List (α × β)} {k : α}
    {v : β} (h : lookupKV m k = some v) : (k, v) ∈ m := by
  induction m with
  | nil => exact absurd h (by rw [lookupKV_nil]; exact Option.noConfusion)
  | cons e rest ih =>
    obtain ⟨a, b⟩ := e
    rw [lookupKV_cons] at h
    by_cases ha : a = k
    · subst ha
      rw [if_pos rfl, Option.some.injEq] at h
      subst h
      exact List.mem_cons_self _ _
    · rw [if_neg ha] at h
      exact List.mem_cons_of_mem _ (ih h)

theorem insertKV_mem {α β : Type} [DecidableEq α] {m : List (α × β)} {k : α}
    {v : β} : ∀ e ∈ insertKV m k v, e ∈ m ∨ e = (k, v) := by
  intro e he
  rw [insertKV] at he
  split at he
  · obtain ⟨x, hx, hfx⟩ := List.mem_map.mp he
    by_cases h : x.1 = k
    · rw [if_pos h] at hfx
      right
      exact hfx.symm
    · rw [if_neg h] at hfx
      left
      exact hfx ▸ hx
  · rcases List.mem_append.mp he with h | h
    · left; exact h
    · right; simpa using h

/-- `insertKV` folded over a whole list of bindings (the loops of
`NewTableWithDefaultConnectivity` in flattened form). -/
def insertAll {α β : Type} [DecidableEq α] (m : List (α × β)) (ps : List (α × β)) :
    List (α × β) :=
  ps.foldl (fun a p => insertKV a p.1 p.2) m

/-- The value of the last binding in `ps` carrying key `k`, if any. -/
def lastMatch {α β : Type} [DecidableEq α] (ps : List (α × β)) (k : α) : Option β :=
  ps.foldl (fun acc p => if p.1 = k then some p.2 else acc) none

theorem lastMatch_go {α β : Type} [DecidableEq α] (ps : List (α × β)) (k : α)
    (a : Option β) :
    ps.foldl (fun acc p => if p.1 = k then some p.2 else acc) a =
      match lastMatch ps k with
      | some v => some v
      | none => a := by
  induction ps generalizing a with
  | nil => simp [lastMatch]
  | cons q rest ih =>
    show List.foldl _ (if q.1 = k then some q.2 else a) rest = _
    rw [ih]
    have hq : lastMatch (q :: rest) k =
        match lastMatch rest k with
        | some v => some v
        | none => if q.1 = k then some q.2 else none := by
      show List.foldl _ (if q.1 = k then some q.2 else none) rest = _
      rw [ih]
    rw [hq]
    cases lastMatch rest k <;> by_cases h : q.1 = k <;> simp [h]

theorem lookupKV_insertAll {α β : Type} [DecidableEq α] (ps : List (α × β))
    (m : List (α × β)) (k : α) :
    lookupKV (insertAll m ps) k =
      match lastMatch ps k with
      | some v => some v
      | none => lookupKV m k := by
  induction ps generalizing m with
  | nil => simp [insertAll, lastMatch]
  | cons p rest ih =>
    show lookupKV (insertAll (insertKV m p.1 p.2) rest) k = _
    rw [ih]
    have hq : lastMatch (p :: rest) k =
        match lastMatch rest k with
        | some v => some v
        | none => if p.1 = k then some p.2 else none := by
      show List.foldl _ (if p.1 = k then some p.2 else none) rest = _
      rw [lastMatch_go]
    rw [hq]
    cases lastMatch rest k with
    | some v => simp
    | none =>
      by_cases h : p.1 = k
      · subst h; simp [lookupKV_insertKV_self]
      · simp [h, lookupKV_insertKV_other m p.1 k p.2 (fun hc => h hc.symm)]

theorem insertAll_mem {α β : Type} [DecidableEq α] (ps : List (α × β)) :
    ∀ (m : List (α × β)), ∀ e ∈ insertAll m ps, e ∈ m ∨ e ∈ ps := by
  induction ps with
  | nil => intro m e he; left; exact he
  | cons p rest ih =>
    intro m e he
    rcases ih (insertKV m p.1 p.2) e he with h | h
    · rcases insertKV_mem e h with h2 | h2
      · left; exact h2
      · right; rw [h2]; exact List.mem_cons_self _ _
    · right; exact List.mem_cons_of_mem _ h

theorem lastMatch_const {α β : Type} [DecidableEq α] {ps : List (α × β)} {k : α}
    {v : β} (hall : ∀ p ∈ ps, p.1 = k → p.2 = v) (hex : ∃ p ∈ ps, p.1 = k) :
    lastMatch ps k = some v := by
  induction ps with
  | nil => simp at hex
  | cons q rest ih =>
    show List.foldl _ (if q.1 = k then some q.2 else none) rest = _
    rw [lastMatch_go]
    by_cases hr : ∃ p ∈ rest, p.1 = k
    · rw [ih (fun p hp => hall p (List.mem_cons_of_mem _ hp)) hr]
    · have hq : q.1 = k := by
        rcases hex with ⟨p, hp, hpk⟩
        rcases List.mem_cons.mp hp with h | h
        · rw [← h]; exact hpk
        · exact absurd ⟨p, h, hpk⟩ hr
      have hnone : lastMatch rest k = none := by
        cases hx : lastMatch rest k with
        | none => rfl
        | some w =>
          exfalso
          apply hr
          have : (k, w) ∈ rest := by
            have : lookupKV (insertAll ([] : List (α × β)) rest) k = some w := by
              rw [lookupKV_insertAll, hx]
            simpa using insertAll_mem rest [] _ (lookupKV_mem this)
          exact ⟨(k, w), this, rfl⟩
      rw [hnone, hq, if_pos rfl, hall q (List.mem_cons_self _ _) hq]


/-! ### Decimal representation: the `"<protocol>/<port>"` key is injective -/

/-- Structural-recursion version of the decimal digit list of a natural
number (`Nat.toDigitsCore` uses fuel; this one recurses on `n / 10`). -/
def natDigits (n : Nat) : List Char :=
  if h : n < 10 then [Nat.digitChar n]
  else natDigits (n / 10) ++ [Nat.digitChar (n % 10)]
decreasing_by exact Nat.div_lt_self (by omega) (by omega)

theorem natDigits_ne_nil (n : Nat) : natDigits n ≠ [] := by
  rw [natDigits]
  split
  · exact List.cons_ne_nil _ _
  · exact List.append_ne_nil_of_right_ne_nil _ (List.cons_ne_nil _ _)

theorem digitChar_ne_slash : ∀ n < 10, Nat.digitChar n ≠ ('/' : Char) := by
  decide

theorem digitChar_inj_lt : ∀ a < 10, ∀ b < 10,
    Nat.digitChar a = Nat.digitChar b → a = b := by
  decide

theorem slash_not_mem_natDigits (n : Nat) : ('/' : Char) ∉ natDigits n := by
  induction n using Nat.strong_induction_on with
  | _ n ih =>
    rw [natDigits]
    split
    case isTrue h =>
      intro hmem
      rcases List.mem_singleton.mp hmem with h2
      exact digitChar_ne_slash n h h2.symm
    case isFalse h =>
      intro hmem
      rcases List.mem_append.mp hmem with h2 | h2
      · exact ih (n / 10) (Nat.div_lt_self (by omega) (by omega)) h2
      · rcases List.mem_singleton.mp h2 with h3
        exact digitChar_ne_slash (n % 10) (Nat.mod_lt _ (by omega)) h3.symm

theorem concat_inj {xs ys : List Char} {a b : Char}
    (h : xs ++ [a] = ys ++ [b]) : xs = ys ∧ a = b := by
  have hr := congrArg List.reverse h
  simp only [List.reverse_append, List.reverse_cons, List.reverse_nil,
    List.nil_append, List.singleton_append] at hr
  obtain ⟨hab, hxy⟩ := List.cons.inj hr
  exact ⟨List.reverse_injective hxy, hab⟩

theorem natDigits_eq (n : Nat) :
    natDigits n =
      if n < 10 then [Nat.digitChar n]
      else natDigits (n / 10) ++ [Nat.digitChar (n % 10)] := by
  by_cases h : n < 10
  · rw [natDigits, dif_pos h, if_pos h]
  · rw [natDigits, dif_neg h, if_neg h]

theorem natDigits_inj : ∀ m n : Nat, natDigits m = natDigits n → m = n := by
  intro m
  induction m using Nat.strong_induction_on with
  | _ m ih =>
    intro n h
    rw [natDigits_eq m, natDigits_eq n] at h
    by_cases hm : m < 10
    · by_cases hn : n < 10
      · rw [if_pos hm, if_pos hn] at h
        exact digitChar_inj_lt m hm n hn (List.cons.inj h).1
      · rw [if_pos hm, if_neg hn] at h
        exfalso
        have hlen := congrArg List.length h
        simp only [List.length_singleton, List.length_append] at hlen
        have := List.length_pos.mpr (natDigits_ne_nil (n / 10))
        omega
    · by_cases hn : n < 10
      · rw [if_neg hm, if_pos hn] at h
        exfalso
        have hlen := congrArg List.length h
        simp only [List.length_singleton, List.length_append] at hlen
        have := List.length_pos.mpr (natDigits_ne_nil (m / 10))
        omega
      · rw [if_neg hm, if_neg hn] at h
        obtain ⟨hdiv, hmod⟩ := concat_inj h
        have h1 : m / 10 = n / 10 :=
          ih (m / 10) (Nat.div_lt_self (by omega) (by omega)) (n / 10) hdiv
        have h2 : m % 10 = n % 10 :=
          digitChar_inj_lt (m % 10) (Nat.mod_lt _ (by omega)) (n % 10)
            (Nat.mod_lt _ (by omega)) hmod
        omega

theorem toDigitsCore_eq_natDigits :
    ∀ (fuel n : Nat) (ds : List Char), n < fuel →
      Nat.toDigitsCore 10 fuel n ds = natDigits n ++ ds := by
  intro fuel
  induction fuel with
  | zero => intro n ds h; omega
  | succ fuel ih =>
    intro n ds h
    show (if n / 10 = 0 then Nat.digitChar (n % 10) :: ds
          else Nat.toDigitsCore 10 fuel (n / 10) (Nat.digitChar (n % 10) :: ds)) =
        natDigits n ++ ds
    by_cases h10 : n / 10 = 0
    · have hn10 : n < 10 := by omega
      rw [if_pos h10, natDigits_eq n, if_pos hn10, Nat.mod_eq_of_lt hn10]
      rfl
    · have hge : 10 ≤ n := by
        by_contra hc
        exact h10 (Nat.div_eq_of_lt (by omega))
      have hfuel : n / 10 < fuel := by
        have := Nat.div_lt_self (show 0 < n by omega) (show 1 < 10 by omega)
        omega
      rw [if_neg h10, ih (n / 10) _ hfuel, natDigits_eq n,
        if_neg (show ¬ n < 10 by omega)]
      rw [List.append_assoc, List.singleton_append]

theorem repr_data (n : Nat) : (Nat.repr n).data = natDigits n := by
  show ((Nat.toDigits 10 n).asString).data = natDigits n
  rw [Nat.toDigits, toDigitsCore_eq_natDigits (n + 1) n [] (Nat.lt_succ_self n)]
  simp [List.asString]

theorem protoPortKey_data (proto : String) (port : Nat) :
    (protoPortKey proto port).data = proto.data ++ '/' :: natDigits port := by
  show ((proto ++ "/" ++ toString port).data) = _
  rw [String.data_append, String.data_append]
  have h1 : ("/" : String).data = ['/'] := rfl
  have h2 : (toString port).data = natDigits port := repr_data port
  rw [h1, h2, List.append_assoc]
  rfl

theorem append_slash_inj :
    ∀ (xs : List Char) {ys xs2 ys2 : List Char},
      ('/' : Char) ∉ ys → ('/' : Char) ∉ ys2 →
      xs ++ '/' :: ys = xs2 ++ '/' :: ys2 → xs = xs2 ∧ ys = ys2 := by
  intro xs
  induction xs with
  | nil =>
    intro ys xs2 ys2 hy hy2 h
    cases xs2 with
    | nil =>
      simp only [List.nil_append] at h
      exact ⟨rfl, (List.cons.inj h).2⟩
    | cons a l =>
      exfalso
      simp only [List.nil_append, List.cons_append] at h
      obtain ⟨ha, htail⟩ := List.cons.inj h
      apply hy
      rw [htail]
      exact List.mem_append.mpr (Or.inr (List.mem_cons_self _ _))
  | cons a l ih =>
    intro ys xs2 ys2 hy hy2 h
    cases xs2 with
    | nil =>
      exfalso
      simp only [List.nil_append, List.cons_append] at h
      obtain ⟨ha, htail⟩ := List.cons.inj h
      apply hy2
      rw [← htail]
      exact List.mem_append.mpr (Or.inr (List.mem_cons_self _ _))
    | cons a2 l2 =>
      simp only [List.cons_append] at h
      obtain ⟨ha, htail⟩ := List.cons.inj h
      obtain ⟨h1, h2⟩ := ih hy hy2 htail
      exact ⟨by rw [ha, h1], h2⟩

theorem protoPortKey_inj {p1 p2 : String} {n1 n2 : Nat}
    (h : protoPortKey p1 n1 = protoPortKey p2 n2) : p1 = p2 ∧ n1 = n2 := by
  have hd := congrArg String.data h
  rw [protoPortKey_data, protoPortKey_data] at hd
  obtain ⟨hp, hn⟩ :=
    append_slash_inj p1.data (slash_not_mem_natDigits n1)
      (slash_not_mem_natDigits n2) hd
  exact ⟨String.ext hp, natDigits_inj n1 n2 hn⟩


/-! ### Characterization of the construction loops -/

/-- The bindings written by the nested construction loops, flattened in
iteration order (protocols outer, ports inner). -/
def keyedPairs (fr toK : String) (protos : List String) (ports : List Nat)
    (ingress egress : Connectivity) : List (String × JobResult) :=
  protos.flatMap (fun proto => ports.map (fun port =>
    (protoPortKey proto port, mkJobResult fr toK proto port ingress egress)))

theorem insertAll_append {α β : Type} [DecidableEq α] (m a b : List (α × β)) :
    insertAll m (a ++ b) = insertAll (insertAll m a) b := by
  simp [insertAll, List.foldl_append]

theorem buildResults_eq (fr toK : String) (protos : List String)
    (ports : List Nat) (ingress egress : Connectivity) :
    buildResults fr toK protos ports ingress egress =
      insertAll [] (keyedPairs fr toK protos ports ingress egress) := by
  have inner : ∀ (proto : String) (acc : List (String × JobResult)),
      ports.foldl (fun acc2 port =>
          insertKV acc2 (protoPortKey proto port)
            (mkJobResult fr toK proto port ingress egress)) acc =
        insertAll acc (ports.map (fun port =>
          (protoPortKey proto port, mkJobResult fr toK proto port ingress egress))) := by
    intro proto acc
    rw [insertAll, List.foldl_map]
  have outer : ∀ (protos2 : List String) (acc : List (String × JobResult)),
      protos2.foldl (fun acc proto =>
          ports.foldl (fun acc2 port =>
            insertKV acc2 (protoPortKey proto port)
              (mkJobResult fr toK proto port ingress egress)) acc) acc =
        insertAll acc (keyedPairs fr toK protos2 ports ingress egress) := by
    intro protos2
    induction protos2 with
    | nil => intro acc; rfl
    | cons p rest ih =>
      intro acc
      show List.foldl _ (ports.foldl _ acc) rest = _
      rw [ih, inner p acc]
      simp only [keyedPairs, List.flatMap_cons, insertAll_append]
  exact outer protos []

theorem lookupKV_buildResults {fr toK proto : String} {port : Nat}
    {protos : List String} {ports : List Nat} {ingress egress : Connectivity}
    (hp : proto ∈ protos) (hq : port ∈ ports) :
    lookupKV (buildResults fr toK protos ports ingress egress)
        (protoPortKey proto port) =
      some (mkJobResult fr toK proto port ingress egress) := by
  rw [buildResults_eq, lookupKV_insertAll]
  have hlast : lastMatch (keyedPairs fr toK protos ports ingress egress)
      (protoPortKey proto port) =
      some (mkJobResult fr toK proto port ingress egress) := by
    apply lastMatch_const
    · intro p hpmem hpk
      obtain ⟨proto2, hproto2, hmem2⟩ := List.mem_flatMap.mp hpmem
      obtain ⟨port2, hport2, heq⟩ := List.mem_map.mp hmem2
      rw [← heq] at hpk ⊢
      obtain ⟨h1, h2⟩ := protoPortKey_inj hpk
      rw [h1, h2]
    · refine ⟨(protoPortKey proto port, mkJobResult fr toK proto port ingress egress),
        ?_, rfl⟩
      exact List.mem_flatMap.mpr ⟨proto, hp, List.mem_map.mpr ⟨port, hq, rfl⟩⟩
  rw [hlast]

theorem buildResults_entries {fr toK : String} {protos : List String}
    {ports : List Nat} {ingress egress : Connectivity} :
    ∀ e ∈ buildResults fr toK protos ports ingress egress,
      ∃ proto ∈ protos, ∃ port ∈ ports,
        e = (protoPortKey proto port, mkJobResult fr toK proto port ingress egress) := by
  intro e he
  rw [buildResults_eq] at he
  rcases insertAll_mem _ [] e he with h | h
  · exact absurd h (List.not_mem_nil e)
  · obtain ⟨proto, hproto, hmem2⟩ := List.mem_flatMap.mp h
    obtain ⟨port, hport, heq⟩ := List.mem_map.mp hmem2
    exact ⟨proto, hproto, port, hport, heq.symm⟩

/-! ### The combination rule -/

theorem setCombined_of_blocked : ∀ i e c : Connectivity,
    (i = .blocked ∨ e = .blocked) → setCombined i e c = .blocked := by
  decide

theorem setCombined_of_allowed : ∀ i e c : Connectivity,
    (i = .allowed ∧ e = .allowed) → setCombined i e c = .allowed := by
  decide

theorem setCombined_of_unresolved : ∀ i e c : Connectivity,
    ¬ (i = .blocked ∨ e = .blocked) → ¬ (i = .allowed ∧ e = .allowed) →
    setCombined i e c = c := by
  decide

/-- **C1.** For every pair of ingress and egress connectivity values,
`setCombined` sets Combined to Denied (Blocked) whenever ingress or egress
equals Denied; sets Combined to Allowed when both equal Allowed; and in every
other case leaves the pre-existing Combined value unchanged. -/
theorem setCombined_combination_rule :
    ∀ i e c : Connectivity,
      ((i = .blocked ∨ e = .blocked) → setCombined i e c = .blocked) ∧
      ((i = .allowed ∧ e = .allowed) → setCombined i e c = .allowed) ∧
      (¬ (i = .blocked ∨ e = .blocked) → ¬ (i = .allowed ∧ e = .allowed) →
        setCombined i e c = c) := by
  decide

/-- Witness for C1 at a concrete input: a Denied ingress forces Denied. -/
theorem setCombined_combination_rule_witness :
    setCombined Connectivity.blocked Connectivity.allowed Connectivity.undefined =
      Connectivity.blocked :=
  (setCombined_combination_rule Connectivity.blocked Connectivity.allowed
    Connectivity.undefined).1 (Or.inl rfl)

/-! ### Construction claims -/

/-- **C2.** For every Resources and every pair of defaults,
`NewTableWithDefaultConnectivity` builds a table in which every ordered
(from, to) pair over the pod-name list has one JobResult per
(protocol, port) combination under key `"<protocol>/<port>"` (and nothing
else); every self-pair cell has both legs Undefined regardless of the
supplied defaults, and every non-self cell carries the supplied defaults. -/
theorem newTableWithDefaultConnectivity_seeding
    (r : Resources) (ingress egress : Connectivity) (fr toK : String)
    (hfr : fr ∈ r.SortedPodNames) (hto : toK ∈ r.SortedPodNames) :
    (∀ proto ∈ r.protocols, ∀ port ∈ r.ports,
      lookupKV ((Table.Get (NewTableWithDefaultConnectivity r ingress egress) fr toK).JobResults)
          (protoPortKey proto port) =
        some (mkJobResult fr toK proto port ingress egress)) ∧
    (∀ e ∈ (Table.Get (NewTableWithDefaultConnectivity r ingress egress) fr toK).JobResults,
      ∃ proto ∈ r.protocols, ∃ port ∈ r.ports,
        e = (protoPortKey proto port, mkJobResult fr toK proto port ingress egress)) ∧
    (∀ (proto : String) (port : Nat),
      (mkJobResult fr toK proto port ingress egress).Ingress =
        some (if fr = toK then Connectivity.undefined else ingress) ∧
      (mkJobResult fr toK proto port ingress egress).Egress =
        some (if fr = toK then Connectivity.undefined else egress)) := by
  refine ⟨?_, ?_, ?_⟩
  · intro proto hp port hq
    exact lookupKV_buildResults hp hq
  · intro e he
    exact buildResults_entries e he
  · intro proto port
    exact ⟨rfl, rfl⟩

/-- The spec example resources: entities {a, b, c}, ports {80},
protocols {tcp}. -/
def resABC : Resources :=
  { SortedPodNames := ["a", "b", "c"], ports := [80], protocols := ["TCP"] }

/-- Witness for C2 at the spec example: the self cell (a, a) is seeded at key
`"TCP/80"` with both legs forced to Undefined despite defaults
(Allowed, Blocked). -/
theorem newTableWithDefaultConnectivity_seeding_witness :
    lookupKV ((Table.Get (NewTableWithDefaultConnectivity resABC Connectivity.allowed Connectivity.blocked) "a" "a").JobResults)
        (protoPortKey "TCP" 80) =
      some (mkJobResult "a" "a" "TCP" 80 Connectivity.allowed Connectivity.blocked) :=
  (newTableWithDefaultConnectivity_seeding resABC Connectivity.allowed
    Connectivity.blocked "a" "a" (by decide) (by decide)).1 "TCP" (by decide)
    80 (by decide)

/-- **C10.** Every Job created by `NewTableWithDefaultConnectivity` has
`TimeoutSeconds = 3` and `ResolvedPortName = ""`, for every choice of
resources, defaults and cell. -/
theorem newTableWithDefaultConnectivity_job_fields
    (r : Resources) (ingress egress : Connectivity) (fr toK k : String)
    (jr : JobResult)
    (h : lookupKV ((Table.Get (NewTableWithDefaultConnectivity r ingress egress) fr toK).JobResults) k =
      some jr) :
    jr.Job.TimeoutSeconds = 3 ∧ jr.Job.ResolvedPortName = "" := by
  have hmem := lookupKV_mem h
  obtain ⟨proto, _, port, _, heq⟩ := buildResults_entries _ hmem
  have hjr : jr = mkJobResult fr toK proto port ingress egress :=
    congrArg Prod.snd heq
  rw [hjr]
  exact ⟨rfl, rfl⟩

/-- Witness for C10 at the spec example resources. -/
theorem newTableWithDefaultConnectivity_job_fields_witness :
    (mkJobResult "a" "b" "TCP" 80 Connectivity.undefined Connectivity.undefined).Job.TimeoutSeconds = 3 ∧
    (mkJobResult "a" "b" "TCP" 80 Connectivity.undefined Connectivity.undefined).Job.ResolvedPortName = "" :=
  newTableWithDefaultConnectivity_job_fields resABC Connectivity.undefined
    Connectivity.undefined "a" "b" (protoPortKey "TCP" 80)
    (mkJobResult "a" "b" "TCP" 80 Connectivity.undefined Connectivity.undefined)
    (lookupKV_buildResults (by decide) (by decide))


/-! ### Cell update lemmas -/

theorem Table.get_setItem_same (t : Table) (fr toK : String) (it : Item) :
    Table.Get (t.setItem fr toK it) fr toK = it := by
  show (if (fr = fr ∧ toK = toK) then it else _) = it
  rw [if_pos ⟨rfl, rfl⟩]

theorem Table.get_setItem_other (t : Table) (fr toK a b : String) (it : Item)
    (h : ¬ (a = fr ∧ b = toK)) :
    Table.Get (t.setItem fr toK it) a b = Table.Get t a b := by
  show (if (a = fr ∧ b = toK) then it else _) = _
  rw [if_neg h]
  rfl

/-- Complete case analysis of `Table.SetIngress`: either the key is absent or
a leg pointer is nil and the call panics (`none`), or it succeeds and
replaces the ingress leg, recomputing `Combined`. -/
theorem setIngress_cases (t : Table) (v : Connectivity) (fr toK proto : String)
    (port : Nat) :
    (Table.SetIngress t v fr toK port proto = none ∧
      (lookupKV ((Table.Get t fr toK).JobResults) (protoPortKey proto port) = none ∨
        ∃ jr, lookupKV ((Table.Get t fr toK).JobResults) (protoPortKey proto port) = some jr ∧
          (jr.Ingress = none ∨ jr.Egress = none))) ∨
    (∃ jr i e,
      lookupKV ((Table.Get t fr toK).JobResults) (protoPortKey proto port) = some jr ∧
      jr.Ingress = some i ∧ jr.Egress = some e ∧
      Table.SetIngress t v fr toK port proto =
        some (t.setItem fr toK { Table.Get t fr toK with
          JobResults := insertKV ((Table.Get t fr toK).JobResults) (protoPortKey proto port)
            { jr with Ingress := some v, Combined := setCombined v e jr.Combined } })) := by
  cases hx : lookupKV ((Table.Get t fr toK).JobResults) (protoPortKey proto port) with
  | none =>
    left
    exact ⟨by simp only [Table.SetIngress, hx], Or.inl rfl⟩
  | some jr =>
    cases hI : jr.Ingress with
    | none =>
      left
      exact ⟨by simp only [Table.SetIngress, hx, hI], Or.inr ⟨jr, rfl, Or.inl hI⟩⟩
    | some i =>
      cases hE : jr.Egress with
      | none =>
        left
        exact ⟨by simp only [Table.SetIngress, hx, hI, hE], Or.inr ⟨jr, rfl, Or.inr hE⟩⟩
      | some e =>
        right
        exact ⟨jr, i, e, rfl, hI, hE, by simp only [Table.SetIngress, hx, hI, hE]⟩

/-- Complete case analysis of `Table.SetEgress`, symmetric to
`setIngress_cases`. -/
theorem setEgress_cases (t : Table) (v : Connectivity) (fr toK proto : String)
    (port : Nat) :
    (Table.SetEgress t v fr toK port proto = none ∧
      (lookupKV ((Table.Get t fr toK).JobResults) (protoPortKey proto port) = none ∨
        ∃ jr, lookupKV ((Table.Get t fr toK).JobResults) (protoPortKey proto port) = some jr ∧
          (jr.Ingress = none ∨ jr.Egress = none))) ∨
    (∃ jr i e,
      lookupKV ((Table.Get t fr toK).JobResults) (protoPortKey proto port) = some jr ∧
      jr.Ingress = some i ∧ jr.Egress = some e ∧
      Table.SetEgress t v fr toK port proto =
        some (t.setItem fr toK { Table.Get t fr toK with
          JobResults := insertKV ((Table.Get t fr toK).JobResults) (protoPortKey proto port)
            { jr with Egress := some v, Combined := setCombined i v jr.Combined } })) := by
  cases hx : lookupKV ((Table.Get t fr toK).JobResults) (protoPortKey proto port) with
  | none =>
    left
    exact ⟨by simp only [Table.SetEgress, hx], Or.inl rfl⟩
  | some jr =>
    cases hI : jr.Ingress with
    | none =>
      left
      exact ⟨by simp only [Table.SetEgress, hx, hI], Or.inr ⟨jr, rfl, Or.inl hI⟩⟩
    | some i =>
      cases hE : jr.Egress with
      | none =>
        left
        exact ⟨by simp only [Table.SetEgress, hx, hI, hE], Or.inr ⟨jr, rfl, Or.inr hE⟩⟩
      | some e =>
        right
        exact ⟨jr, i, e, rfl, hI, hE, by simp only [Table.SetEgress, hx, hI, hE]⟩

/-! ### Error-handling claims -/

/-- **C7.** `Item.AddJobResult` returns an error and leaves the map unchanged
when the key already exists; otherwise it returns no error and afterwards the
map binds that key to the given JobResult, all other bindings unchanged. -/
theorem addJobResult_duplicate_and_insert (p : Item) (jr : JobResult) :
    ((lookupKV p.JobResults jr.Key).isSome →
      ∃ msg, p.AddJobResult jr = (some msg, p)) ∧
    (lookupKV p.JobResults jr.Key = none →
      (p.AddJobResult jr).1 = none ∧
      lookupKV (p.AddJobResult jr).2.JobResults jr.Key = some jr ∧
      (∀ k, k ≠ jr.Key →
        lookupKV (p.AddJobResult jr).2.JobResults k = lookupKV p.JobResults k) ∧
      (p.AddJobResult jr).2.From = p.From ∧ (p.AddJobResult jr).2.To = p.To) := by
  constructor
  · intro hp
    rw [Item.AddJobResult, if_pos hp]
    exact ⟨_, rfl⟩
  · intro hn
    have hcond : ¬ (lookupKV p.JobResults jr.Key).isSome = true := by
      rw [hn]
      simp
    rw [Item.AddJobResult, if_neg hcond]
    refine ⟨rfl, ?_, ?_, rfl, rfl⟩
    · show lookupKV (p.JobResults ++ [(jr.Key, jr)]) jr.Key = some jr
      rw [lookupKV_append, hn]
      show lookupKV [(jr.Key, jr)] jr.Key = some jr
      rw [lookupKV_cons, if_pos rfl]
    · intro k hk
      show lookupKV (p.JobResults ++ [(jr.Key, jr)]) k = lookupKV p.JobResults k
      rw [lookupKV_append]
      cases hx : lookupKV p.JobResults k with
      | some v => rfl
      | none =>
        show lookupKV [(jr.Key, jr)] k = none
        rw [lookupKV_cons, if_neg (fun hc => hk hc.symm), lookupKV_nil]

/-- Witness for C7: adding to an empty cell succeeds and the key is bound. -/
theorem addJobResult_duplicate_and_insert_witness :
    lookupKV (Item.AddJobResult { From := "a", To := "b", JobResults := [] }
        (mkJobResult "a" "b" "TCP" 80 Connectivity.undefined Connectivity.undefined)).2.JobResults
      (mkJobResult "a" "b" "TCP" 80 Connectivity.undefined Connectivity.undefined).Key =
      some (mkJobResult "a" "b" "TCP" 80 Connectivity.undefined Connectivity.undefined) :=
  ((addJobResult_duplicate_and_insert
    { From := "a", To := "b", JobResults := [] }
    (mkJobResult "a" "b" "TCP" 80 Connectivity.undefined Connectivity.undefined)).2 rfl).2.1

/-- **C6.** `SetIngress`/`SetEgress` terminate fatally exactly when the
`"<protocol>/<port>"` key is absent from the addressed cell or the looked-up
JobResult has a nil leg pointer; every key seeded by
`NewTableWithDefaultConnectivity` makes them succeed. -/
theorem setIngressEgress_panic_iff :
    (∀ (t : Table) (v : Connectivity) (fr toK proto : String) (port : Nat),
      fr ∈ t.Wrapped.Items → toK ∈ t.Wrapped.Items →
      (Table.SetIngress t v fr toK port proto = none ↔
        lookupKV ((Table.Get t fr toK).JobResults) (protoPortKey proto port) = none ∨
        ∃ jr, lookupKV ((Table.Get t fr toK).JobResults) (protoPortKey proto port) = some jr ∧
          (jr.Ingress = none ∨ jr.Egress = none))) ∧
    (∀ (t : Table) (v : Connectivity) (fr toK proto : String) (port : Nat),
      fr ∈ t.Wrapped.Items → toK ∈ t.Wrapped.Items →
      (Table.SetEgress t v fr toK port proto = none ↔
        lookupKV ((Table.Get t fr toK).JobResults) (protoPortKey proto port) = none ∨
        ∃ jr, lookupKV ((Table.Get t fr toK).JobResults) (protoPortKey proto port) = some jr ∧
          (jr.Ingress = none ∨ jr.Egress = none))) ∧
    (∀ (r : Resources) (ingress egress v : Connectivity) (fr toK proto : String)
      (port : Nat),
      fr ∈ r.SortedPodNames → toK ∈ r.SortedPodNames →
      proto ∈ r.protocols → port ∈ r.ports →
      (Table.SetIngress (NewTableWithDefaultConnectivity r ingress egress) v fr toK port proto).isSome = true ∧
      (Table.SetEgress (NewTableWithDefaultConnectivity r ingress egress) v fr toK port proto).isSome = true) := by
  refine ⟨?_, ?_, ?_⟩
  · intro t v fr toK proto port hfr hto
    rcases setIngress_cases t v fr toK proto port with
      ⟨hnone, hcond⟩ | ⟨jr, i, e, hx, hI, hE, hsome⟩
    · exact ⟨fun _ => hcond, fun _ => hnone⟩
    · constructor
      · intro h
        rw [hsome] at h
        exact Option.noConfusion h
      · intro hcond
        exfalso
        rcases hcond with h | ⟨jr2, hx2, hlegs⟩
        · rw [hx] at h
          exact Option.noConfusion h
        · rw [hx, Option.some.injEq] at hx2
          subst hx2
          rcases hlegs with h | h
          · rw [hI] at h
            exact Option.noConfusion h
          · rw [hE] at h
            exact Option.noConfusion h
  · intro t v fr toK proto port hfr hto
    rcases setEgress_cases t v fr toK proto port with
      ⟨hnone, hcond⟩ | ⟨jr, i, e, hx, hI, hE, hsome⟩
    · exact ⟨fun _ => hcond, fun _ => hnone⟩
    · constructor
      · intro h
        rw [hsome] at h
        exact Option.noConfusion h
      · intro hcond
        exfalso
        rcases hcond with h | ⟨jr2, hx2, hlegs⟩
        · rw [hx] at h
          exact Option.noConfusion h
        · rw [hx, Option.some.injEq] at hx2
          subst hx2
          rcases hlegs with h | h
          · rw [hI] at h
            exact Option.noConfusion h
          · rw [hE] at h
            exact Option.noConfusion h
  · intro r ingress egress v fr toK proto port hfr hto hp hq
    have hx : lookupKV ((Table.Get (NewTableWithDefaultConnectivity r ingress egress) fr toK).JobResults)
        (protoPortKey proto port) = some (mkJobResult fr toK proto port ingress egress) :=
      lookupKV_buildResults hp hq
    constructor
    · rcases setIngress_cases (NewTableWithDefaultConnectivity r ingress egress)
        v fr toK proto port with ⟨hnone, hcond⟩ | ⟨jr, i, e, _, _, _, hsome⟩
      · exfalso
        rcases hcond with h | ⟨jr2, hx2, hlegs⟩
        · rw [hx] at h
          exact Option.noConfusion h
        · rw [hx, Option.some.injEq] at hx2
          subst hx2
          simp [mkJobResult] at hlegs
      · rw [hsome]
        rfl
    · rcases setEgress_cases (NewTableWithDefaultConnectivity r ingress egress)
        v fr toK proto port with ⟨hnone, hcond⟩ | ⟨jr, i, e, _, _, _, hsome⟩
      · exfalso
        rcases hcond with h | ⟨jr2, hx2, hlegs⟩
        · rw [hx] at h
          exact Option.noConfusion h
        · rw [hx, Option.some.injEq] at hx2
          subst hx2
          simp [mkJobResult] at hlegs
      · rw [hsome]
        rfl

/-- Witness for C6: on the spec example table, `SetIngress` on the seeded key
`"TCP/80"` succeeds, and on the never-seeded port 9999 it panics. -/
theorem setIngressEgress_panic_iff_witness :
    (Table.SetIngress (NewTableWithDefaultConnectivity resABC Connectivity.undefined Connectivity.undefined)
        Connectivity.allowed "a" "b" 80 "TCP").isSome = true ∧
    Table.SetIngress (NewTableWithDefaultConnectivity resABC Connectivity.undefined Connectivity.undefined)
        Connectivity.allowed "a" "b" 9999 "TCP" = none := by
  constructor
  · exact (setIngressEgress_panic_iff.2.2 resABC Connectivity.undefined
      Connectivity.undefined Connectivity.allowed "a" "b" "TCP" 80
      (by decide) (by decide) (by decide) (by decide)).1
  · exact ((setIngressEgress_panic_iff.1 (NewTableWithDefaultConnectivity resABC
      Connectivity.undefined Connectivity.undefined) Connectivity.allowed
      "a" "b" "TCP" 9999 (by decide) (by decide)).mpr (Or.inl (by decide)))

/-- **C5.** On a table freshly built with defaults (Undefined, Undefined),
`SetEgress(Allowed, "a", "b", 80, "TCP")` succeeds; afterwards the JobResult
at cell (a, b) under key `"TCP/80"` has Egress Allowed, Ingress unchanged
(still Undefined) and Combined recomputed by the combination rule (still
Undefined); every other cell and every other key is unchanged. -/
theorem setEgress_frame (r : Resources)
    (hfa : "a" ∈ r.SortedPodNames) (hfb : "b" ∈ r.SortedPodNames)
    (hp : "TCP" ∈ r.protocols) (hq : 80 ∈ r.ports) :
    ∃ t2, Table.SetEgress
        (NewTableWithDefaultConnectivity r Connectivity.undefined Connectivity.undefined)
        Connectivity.allowed "a" "b" 80 "TCP" = some t2 ∧
      (∃ jr2, lookupKV ((Table.Get t2 "a" "b").JobResults) (protoPortKey "TCP" 80) = some jr2 ∧
        jr2.Egress = some Connectivity.allowed ∧
        jr2.Ingress = some Connectivity.undefined ∧
        jr2.Combined = setCombined Connectivity.undefined Connectivity.allowed
          (mkJobResult "a" "b" "TCP" 80 Connectivity.undefined Connectivity.undefined).Combined ∧
        jr2.Combined = Connectivity.undefined) ∧
      (∀ fr toK, ¬ (fr = "a" ∧ toK = "b") →
        Table.Get t2 fr toK =
          Table.Get (NewTableWithDefaultConnectivity r Connectivity.undefined Connectivity.undefined) fr toK) ∧
      (∀ k, k ≠ protoPortKey "TCP" 80 →
        lookupKV ((Table.Get t2 "a" "b").JobResults) k =
          lookupKV ((Table.Get (NewTableWithDefaultConnectivity r Connectivity.undefined Connectivity.undefined) "a" "b").JobResults) k) := by
  have hx : lookupKV ((Table.Get (NewTableWithDefaultConnectivity r Connectivity.undefined Connectivity.undefined) "a" "b").JobResults)
      (protoPortKey "TCP" 80) =
      some (mkJobResult "a" "b" "TCP" 80 Connectivity.undefined Connectivity.undefined) :=
    lookupKV_buildResults hp hq
  rcases setEgress_cases (NewTableWithDefaultConnectivity r Connectivity.undefined Connectivity.undefined)
      Connectivity.allowed "a" "b" "TCP" 80 with
    ⟨hnone, hcond⟩ | ⟨jr, i, e, hx2, hI, hE, hsome⟩
  · exfalso
    rcases hcond with h | ⟨jr2, hx2, hlegs⟩
    · rw [hx] at h
      exact Option.noConfusion h
    · rw [hx, Option.some.injEq] at hx2
      subst hx2
      simp [mkJobResult] at hlegs
  · rw [hx, Option.some.injEq] at hx2
    subst hx2
    have hIu : i = Connectivity.undefined := by
      have h2 : (mkJobResult "a" "b" "TCP" 80 Connectivity.undefined Connectivity.undefined).Ingress =
          some Connectivity.undefined := by decide
      rw [h2, Option.some.injEq] at hI
      exact hI.symm
    subst hIu
    refine ⟨_, hsome, ?_, ?_, ?_⟩
    · refine ⟨{ mkJobResult "a" "b" "TCP" 80 Connectivity.undefined Connectivity.undefined with
          Egress := some Connectivity.allowed,
          Combined := setCombined Connectivity.undefined Connectivity.allowed
            (mkJobResult "a" "b" "TCP" 80 Connectivity.undefined Connectivity.undefined).Combined },
        ?_, rfl, by decide, rfl, by decide⟩
      rw [Table.get_setItem_same]
      exact lookupKV_insertKV_self _ _ _
    · intro fr toK h
      exact Table.get_setItem_other _ _ _ _ _ _ h
    · intro k hk
      rw [Table.get_setItem_same]
      exact lookupKV_insertKV_other _ _ _ _ hk

/-- Witness for C5 at the spec example resources. -/
theorem setEgress_frame_witness :
    ∃ t2, Table.SetEgress
        (NewTableWithDefaultConnectivity resABC Connectivity.undefined Connectivity.undefined)
        Connectivity.allowed "a" "b" 80 "TCP" = some t2 ∧
      (∃ jr2, lookupKV ((Table.Get t2 "a" "b").JobResults) (protoPortKey "TCP" 80) = some jr2 ∧
        jr2.Egress = some Connectivity.allowed ∧
        jr2.Ingress = some Connectivity.undefined ∧
        jr2.Combined = setCombined Connectivity.undefined Connectivity.allowed
          (mkJobResult "a" "b" "TCP" 80 Connectivity.undefined Connectivity.undefined).Combined ∧
        jr2.Combined = Connectivity.undefined) ∧
      (∀ fr toK, ¬ (fr = "a" ∧ toK = "b") →
        Table.Get t2 fr toK =
          Table.Get (NewTableWithDefaultConnectivity resABC Connectivity.undefined Connectivity.undefined) fr toK) ∧
      (∀ k, k ≠ protoPortKey "TCP" 80 →
        lookupKV ((Table.Get t2 "a" "b").JobResults) k =
          lookupKV ((Table.Get (NewTableWithDefaultConnectivity resABC Connectivity.undefined Connectivity.undefined) "a" "b").JobResults) k) :=
  setEgress_frame resABC (by decide) (by decide) (by decide) (by decide)


/-! ### Reachability and the Combined invariant -/

/-- Tables obtainable from `NewTableWithDefaultConnectivity` by any sequence
of successful `SetIngress`/`SetEgress` calls. -/
inductive Reachable : Table → Prop where
  | base (r : Resources) (ingress egress : Connectivity) :
      Reachable (NewTableWithDefaultConnectivity r ingress egress)
  | stepIngress {t t2 : Table} (v : Connectivity) (fr toK proto : String)
      (port : Nat) : Reachable t →
      Table.SetIngress t v fr toK port proto = some t2 → Reachable t2
  | stepEgress {t t2 : Table} (v : Connectivity) (fr toK proto : String)
      (port : Nat) : Reachable t →
      Table.SetEgress t v fr toK port proto = some t2 → Reachable t2

/-- The resolved half of the combination rule as a per-JobResult invariant:
a Blocked leg forces Combined Blocked, two Allowed legs force Combined
Allowed.  (In the unresolved cases Combined is history dependent.) -/
def jrOK (jr : JobResult) : Prop :=
  ((jr.Ingress = some Connectivity.blocked ∨ jr.Egress = some Connectivity.blocked) →
    jr.Combined = Connectivity.blocked) ∧
  ((jr.Ingress = some Connectivity.allowed ∧ jr.Egress = some Connectivity.allowed) →
    jr.Combined = Connectivity.allowed)

theorem jrOK_mk_setCombined (jb : Job) (i e c : Connectivity) :
    jrOK { Job := jb, Ingress := some i, Egress := some e,
           Combined := setCombined i e c } := by
  constructor
  · intro h
    show setCombined i e c = Connectivity.blocked
    apply setCombined_of_blocked
    rcases h with h | h
    · exact Or.inl (Option.some.inj h)
    · exact Or.inr (Option.some.inj h)
  · intro h
    show setCombined i e c = Connectivity.allowed
    exact setCombined_of_allowed i e c ⟨Option.some.inj h.1, Option.some.inj h.2⟩

/-- The whole-table invariant: every stored JobResult satisfies `jrOK`. -/
def tableOK (t : Table) : Prop :=
  ∀ (fr toK k : String) (jr : JobResult),
    lookupKV ((Table.Get t fr toK).JobResults) k = some jr → jrOK jr

theorem tableOK_new (r : Resources) (ingress egress : Connectivity) :
    tableOK (NewTableWithDefaultConnectivity r ingress egress) := by
  intro fr toK k jr h
  obtain ⟨proto, _, port, _, heq⟩ := buildResults_entries _ (lookupKV_mem h)
  have hjr : jr = mkJobResult fr toK proto port ingress egress :=
    congrArg Prod.snd heq
  rw [hjr]
  exact jrOK_mk_setCombined _ _ _ _

theorem tableOK_setIngress {t t2 : Table} (v : Connectivity)
    (fr toK proto : String) (port : Nat) (hok : tableOK t)
    (h : Table.SetIngress t v fr toK port proto = some t2) : tableOK t2 := by
  rcases setIngress_cases t v fr toK proto port with
    ⟨hnone, _⟩ | ⟨jr, i, e, hx, hI, hE, hsome⟩
  · rw [hnone] at h
    exact Option.noConfusion h
  · rw [hsome, Option.some.injEq] at h
    subst h
    intro fr2 toK2 k jr2 hlook
    by_cases hcell : fr2 = fr ∧ toK2 = toK
    · obtain ⟨rfl, rfl⟩ := hcell
      rw [Table.get_setItem_same] at hlook
      by_cases hk : k = protoPortKey proto port
      · subst hk
        rw [lookupKV_insertKV_self] at hlook
        have hj : jr2 = { jr with
            Ingress := some v,
            Combined := setCombined v e jr.Combined } :=
          (Option.some.inj hlook).symm
        have hrec : ({ jr with
            Ingress := some v,
            Combined := setCombined v e jr.Combined } : JobResult) =
            { Job := jr.Job, Ingress := some v, Egress := some e,
              Combined := setCombined v e jr.Combined } := by
          rw [← hE]
        rw [hj, hrec]
        exact jrOK_mk_setCombined _ _ _ _
      · rw [lookupKV_insertKV_other _ _ _ _ hk] at hlook
        exact hok _ _ k jr2 hlook
    · rw [Table.get_setItem_other _ _ _ _ _ _ hcell] at hlook
      exact hok fr2 toK2 k jr2 hlook

theorem tableOK_setEgress {t t2 : Table} (v : Connectivity)
    (fr toK proto : String) (port : Nat) (hok : tableOK t)
    (h : Table.SetEgress t v fr toK port proto = some t2) : tableOK t2 := by
  rcases setEgress_cases t v fr toK proto port with
    ⟨hnone, _⟩ | ⟨jr, i, e, hx, hI, hE, hsome⟩
  · rw [hnone] at h
    exact Option.noConfusion h
  · rw [hsome, Option.some.injEq] at h
    subst h
    intro fr2 toK2 k jr2 hlook
    by_cases hcell : fr2 = fr ∧ toK2 = toK
    · obtain ⟨rfl, rfl⟩ := hcell
      rw [Table.get_setItem_same] at hlook
      by_cases hk : k = protoPortKey proto port
      · subst hk
        rw [lookupKV_insertKV_self] at hlook
        have hj : jr2 = { jr with
            Egress := some v,
            Combined := setCombined i v jr.Combined } :=
          (Option.some.inj hlook).symm
        have hrec : ({ jr with
            Egress := some v,
            Combined := setCombined i v jr.Combined } : JobResult) =
            { Job := jr.Job, Ingress := some i, Egress := some v,
              Combined := setCombined i v jr.Combined } := by
          rw [← hI]
        rw [hj, hrec]
        exact jrOK_mk_setCombined _ _ _ _
      · rw [lookupKV_insertKV_other _ _ _ _ hk] at hlook
        exact hok _ _ k jr2 hlook
    · rw [Table.get_setItem_other _ _ _ _ _ _ hcell] at hlook
      exact hok fr2 toK2 k jr2 hlook

theorem tableOK_reachable : ∀ t, Reachable t → tableOK t := by
  intro t h
  induction h with
  | base r ingress egress => exact tableOK_new r ingress egress
  | stepIngress v fr toK proto port hr heq ih =>
    exact tableOK_setIngress v fr toK proto port ih heq
  | stepEgress v fr toK proto port hr heq ih =>
    exact tableOK_setEgress v fr toK proto port ih heq

/-- Resources over {a, b} used by the concrete counterexamples. -/
def resAB : Resources :=
  { SortedPodNames := ["a", "b"], ports := [80], protocols := ["TCP"] }

def tC4a : Table :=
  NewTableWithDefaultConnectivity resAB Connectivity.undefined Connectivity.allowed

def tC4b : Table :=
  (Table.SetIngress tC4a Connectivity.allowed "a" "b" 80 "TCP").getD tC4a

def tC4c : Table :=
  (Table.SetIngress tC4b Connectivity.undefined "a" "b" 80 "TCP").getD tC4b

theorem reachable_tC4c : Reachable tC4c := by
  have h0 : Reachable tC4a :=
    Reachable.base resAB Connectivity.undefined Connectivity.allowed
  have h1 : Table.SetIngress tC4a Connectivity.allowed "a" "b" 80 "TCP" =
      some tC4b := rfl
  have h2 : Table.SetIngress tC4b Connectivity.undefined "a" "b" 80 "TCP" =
      some tC4c := rfl
  exact Reachable.stepIngress _ _ _ _ _
    (Reachable.stepIngress _ _ _ _ _ h0 h1) h2

/-- **C4 counterexample.** Combined is not a pure function of the
(Ingress, Egress) pair over reachable tables: in the table reached from
defaults (Undefined, Allowed) by SetIngress(Allowed) then SetIngress(Undefined)
on cell (a, b), the JobResults at (a, b) and (b, a) both carry legs
(Undefined, Allowed), yet their Combined values are Allowed and Undefined. -/
theorem combined_not_pure_function_of_legs :
    ¬ (∀ t, Reachable t →
        ∀ (fr1 to1 k1 : String) (jr1 : JobResult)
          (fr2 to2 k2 : String) (jr2 : JobResult),
          lookupKV ((Table.Get t fr1 to1).JobResults) k1 = some jr1 →
          lookupKV ((Table.Get t fr2 to2).JobResults) k2 = some jr2 →
          jr1.Ingress = jr2.Ingress → jr1.Egress = jr2.Egress →
          jr1.Combined = jr2.Combined) := by
  intro hclaim
  have h := hclaim tC4c reachable_tC4c "a" "b" "TCP/80"
      { Job := { FromKey := "a", ToKey := "b", ResolvedPort := 80,
                 ResolvedPortName := "", Protocol := "TCP", TimeoutSeconds := 3 },
        Ingress := some Connectivity.undefined,
        Egress := some Connectivity.allowed,
        Combined := Connectivity.allowed }
      "b" "a" "TCP/80"
      { Job := { FromKey := "b", ToKey := "a", ResolvedPort := 80,
                 ResolvedPortName := "", Protocol := "TCP", TimeoutSeconds := 3 },
        Ingress := some Connectivity.undefined,
        Egress := some Connectivity.allowed,
        Combined := Connectivity.undefined }
      rfl rfl rfl rfl
  exact absurd h (by decide)

/-- **C4 (amended).** Over every reachable table, Combined is determined by
the legs on the cases the combination rule covers: a Blocked leg forces
Combined Blocked and two Allowed legs force Combined Allowed; in the
remaining (unresolved) cases Combined retains its previous value and is
history dependent. -/
theorem reachable_combined_resolved (t : Table) (h : Reachable t)
    (fr toK k : String) (jr : JobResult)
    (hjr : lookupKV ((Table.Get t fr toK).JobResults) k = some jr) :
    ((jr.Ingress = some Connectivity.blocked ∨
      jr.Egress = some Connectivity.blocked) →
      jr.Combined = Connectivity.blocked) ∧
    ((jr.Ingress = some Connectivity.allowed ∧
      jr.Egress = some Connectivity.allowed) →
      jr.Combined = Connectivity.allowed) :=
  tableOK_reachable t h fr toK k jr hjr

/-- Witness for the amended C4 at a concrete reachable table. -/
theorem reachable_combined_resolved_witness :
    ((mkJobResult "a" "b" "TCP" 80 Connectivity.allowed Connectivity.allowed).Ingress = some Connectivity.allowed ∧
     (mkJobResult "a" "b" "TCP" 80 Connectivity.allowed Connectivity.allowed).Egress = some Connectivity.allowed) ∧
    (mkJobResult "a" "b" "TCP" 80 Connectivity.allowed Connectivity.allowed).Combined = Connectivity.allowed := by
  have hlegs : (mkJobResult "a" "b" "TCP" 80 Connectivity.allowed Connectivity.allowed).Ingress = some Connectivity.allowed ∧
      (mkJobResult "a" "b" "TCP" 80 Connectivity.allowed Connectivity.allowed).Egress = some Connectivity.allowed := by
    decide
  refine ⟨hlegs, ?_⟩
  exact (reachable_combined_resolved _
    (Reachable.base resAB Connectivity.allowed Connectivity.allowed)
    "a" "b" (protoPortKey "TCP" 80) _
    (lookupKV_buildResults (List.mem_singleton.mpr rfl) (List.mem_singleton.mpr rfl))).2 hlegs


/-! ### Render dispatch -/

theorem scanCells_nil (schema : List String) :
    scanCells [] schema = (true, true) := rfl

theorem scanCells_cons (d : List (String × JobResult))
    (rest : List (List (String × JobResult))) (schema : List String) :
    scanCells (d :: rest) schema =
      if d.length ≠ 1 then (true, false)
      else if (if schemaKey d ∈ schema then schema
               else schemaKey d :: schema).length > 1 then (false, true)
      else scanCells rest
        (if schemaKey d ∈ schema then schema else schemaKey d :: schema) := rfl

theorem scanCells_uniform_single :
    ∀ (l : List (List (String × JobResult))) (s : String)
      (schema : List String), (schema = [] ∨ schema = [s]) →
      (∀ m ∈ l, m.length = 1 ∧ schemaKey m = s) →
      scanCells l schema = (true, true) := by
  intro l
  induction l with
  | nil => intro s schema hsch hall; rfl
  | cons d rest ih =>
    intro s schema hsch hall
    obtain ⟨h1, h2⟩ := hall d (List.mem_cons_self _ _)
    have hne : ¬ d.length ≠ 1 := by rw [h1]; exact fun hc => hc rfl
    have hschem2 : (if schemaKey d ∈ schema then schema
        else schemaKey d :: schema) = [s] := by
      rcases hsch with h | h
      · subst h
        rw [h2, if_neg (List.not_mem_nil s)]
      · subst h
        rw [h2, if_pos (List.mem_singleton.mpr rfl)]
    have hlen1 : ¬ (([s] : List String).length > 1) := by simp
    rw [scanCells_cons, if_neg hne, hschem2, if_neg hlen1]
    exact ih s [s] (Or.inr rfl) (fun m hm => hall m (List.mem_cons_of_mem _ hm))

theorem scanCells_nonuniform :
    ∀ (l : List (List (String × JobResult))) (s : String),
      (∀ m ∈ l, m.length = 1) → (∃ m ∈ l, schemaKey m ≠ s) →
      scanCells l [s] = (false, true) := by
  intro l
  induction l with
  | nil =>
    intro s hall hex
    obtain ⟨m, hm, _⟩ := hex
    exact absurd hm (List.not_mem_nil m)
  | cons d rest ih =>
    intro s hall hex
    have h1 := hall d (List.mem_cons_self _ _)
    have hne : ¬ d.length ≠ 1 := by rw [h1]; exact fun hc => hc rfl
    rw [scanCells_cons, if_neg hne]
    by_cases hd : schemaKey d = s
    · have hschem2 : (if schemaKey d ∈ [s] then [s]
          else schemaKey d :: [s]) = [s] := by
        rw [hd, if_pos (List.mem_singleton.mpr rfl)]
      have hlen1 : ¬ (([s] : List String).length > 1) := by simp
      rw [hschem2, if_neg hlen1]
      apply ih s (fun m hm => hall m (List.mem_cons_of_mem _ hm))
      obtain ⟨m, hm, hms⟩ := hex
      rcases List.mem_cons.mp hm with h | h
      · exact absurd (h ▸ hms) (fun hc => hc hd)
      · exact ⟨m, h, hms⟩
    · have hschem2 : (if schemaKey d ∈ [s] then [s]
          else schemaKey d :: [s]) = [schemaKey d, s] := by
        rw [if_neg (fun hc => hd (List.mem_singleton.mp hc))]
      have hlen2 : ([schemaKey d, s] : List String).length > 1 := by simp
      rw [hschem2, if_pos hlen2]

theorem scanCells_multi :
    ∀ (l : List (List (String × JobResult))) (s : String),
      (∀ m ∈ l, m.length = 1 → schemaKey m = s) → (∃ m ∈ l, m.length ≠ 1) →
      scanCells l [s] = (true, false) := by
  intro l
  induction l with
  | nil =>
    intro s hall hex
    obtain ⟨m, hm, _⟩ := hex
    exact absurd hm (List.not_mem_nil m)
  | cons d rest ih =>
    intro s hall hex
    by_cases h1 : d.length = 1
    · have hne : ¬ d.length ≠ 1 := by rw [h1]; exact fun hc => hc rfl
      have hschem2 : (if schemaKey d ∈ [s] then [s]
          else schemaKey d :: [s]) = [s] := by
        rw [hall d (List.mem_cons_self _ _) h1,
          if_pos (List.mem_singleton.mpr rfl)]
      have hlen1 : ¬ (([s] : List String).length > 1) := by simp
      rw [scanCells_cons, if_neg hne, hschem2, if_neg hlen1]
      apply ih s (fun m hm hm1 => hall m (List.mem_cons_of_mem _ hm) hm1)
      obtain ⟨m, hm, hms⟩ := hex
      rcases List.mem_cons.mp hm with h | h
      · exact absurd (h ▸ h1) hms
      · exact ⟨m, h, hms⟩
    · rw [scanCells_cons, if_pos h1]

/-- **C3 (amended).** The render dispatch scans cells in `Keys()` order:
a table whose cells all hold exactly one JobResult with an identical key
renders the simple grid; if all cells hold exactly one JobResult and two
cells disagree on the key, the whole table renders non-uniform with
`"key: value"` lines; but when some cell holds more than one JobResult
(e.g. a second key added to one cell of an otherwise uniform single-key
table) the scan stops at that cell with uniformity still assumed and the
dispatch picks the uniform-multi layout, never the non-uniform one. -/
theorem renderMode_dispatch (t : Table) :
    ((∀ m ∈ Table.cells t, ∃ k jr, m = [(k, jr)]) →
      (∀ m1 ∈ Table.cells t, ∀ m2 ∈ Table.cells t,
        m1.map Prod.fst = m2.map Prod.fst) →
      Table.renderMode t = RenderMode.simple) ∧
    ((∀ m ∈ Table.cells t, ∃ k jr, m = [(k, jr)]) →
      (∃ m1 ∈ Table.cells t, ∃ m2 ∈ Table.cells t,
        m1.map Prod.fst ≠ m2.map Prod.fst) →
      Table.renderMode t = RenderMode.nonuniform) ∧
    ((∃ s, ∀ m ∈ Table.cells t, m.length = 1 → schemaKey m = s) →
      (∃ m ∈ Table.cells t, m.length ≠ 1) →
      Table.renderMode t = RenderMode.uniformMulti) := by
  have single_schema : ∀ (m : List (String × JobResult)) (k : String)
      (jr : JobResult), m = [(k, jr)] → schemaKey m = k := by
    intro m k jr hm
    rw [hm]
    rfl
  have single_len : ∀ (m : List (String × JobResult)), (∃ k jr, m = [(k, jr)]) →
      m.length = 1 := by
    intro m hm
    obtain ⟨k, jr, rfl⟩ := hm
    rfl
  refine ⟨?_, ?_, ?_⟩
  · intro hsingle huni
    cases hcells : Table.cells t with
    | nil =>
      rw [Table.renderMode, hcells, scanCells_nil]
    | cons d rest =>
      rw [Table.renderMode, hcells]
      obtain ⟨k, jr, hd⟩ := hsingle d (by rw [hcells]; exact List.mem_cons_self _ _)
      have hall : ∀ m ∈ (d :: rest), m.length = 1 ∧ schemaKey m = schemaKey d := by
        intro m hm
        obtain ⟨k2, jr2, hm2⟩ := hsingle m (by rw [hcells]; exact hm)
        constructor
        · rw [hm2]; rfl
        · have hkeys := huni m (by rw [hcells]; exact hm) d
            (by rw [hcells]; exact List.mem_cons_self _ _)
          rw [single_schema m k2 jr2 hm2, single_schema d k jr hd]
          rw [hm2, hd] at hkeys
          simpa using hkeys
      rw [scanCells_uniform_single (d :: rest) (schemaKey d) [] (Or.inl rfl) hall]
  · intro hsingle hdiff
    cases hcells : Table.cells t with
    | nil =>
      obtain ⟨m1, hm1, _⟩ := hdiff
      rw [hcells] at hm1
      exact absurd hm1 (List.not_mem_nil m1)
    | cons d rest =>
      rw [Table.renderMode, hcells]
      have hall : ∀ m ∈ (d :: rest), m.length = 1 := by
        intro m hm
        exact single_len m (hsingle m (by rw [hcells]; exact hm))
      have hne : ¬ d.length ≠ 1 := by
        rw [hall d (List.mem_cons_self _ _)]
        exact fun hc => hc rfl
      have hschem2 : (if schemaKey d ∈ ([] : List String) then ([] : List String)
          else schemaKey d :: []) = [schemaKey d] := by
        rw [if_neg (List.not_mem_nil (schemaKey d))]
      have hlen1 : ¬ (([schemaKey d] : List String).length > 1) := by simp
      rw [scanCells_cons, if_neg hne, hschem2, if_neg hlen1]
      have hexrest : ∃ m ∈ rest, schemaKey m ≠ schemaKey d := by
        obtain ⟨m1, hm1, m2, hm2, hdiff12⟩ := hdiff
        rw [hcells] at hm1 hm2
        obtain ⟨k1, jr1, he1⟩ := hsingle m1 (by rw [hcells]; exact hm1)
        obtain ⟨k2, jr2, he2⟩ := hsingle m2 (by rw [hcells]; exact hm2)
        have hk12 : k1 ≠ k2 := by
          intro hc
          apply hdiff12
          rw [he1, he2, hc]
          simp
        by_cases hm1d : schemaKey m1 = schemaKey d
        · refine ⟨m2, ?_, ?_⟩
          · rcases List.mem_cons.mp hm2 with h | h
            · exfalso
              apply hk12
              have e1 := single_schema m1 k1 jr1 he1
              have e2 := single_schema m2 k2 jr2 he2
              rw [← e1, ← e2, hm1d, h]
            · exact h
          · intro hc
            apply hk12
            have e1 := single_schema m1 k1 jr1 he1
            have e2 := single_schema m2 k2 jr2 he2
            rw [← e1, ← e2, hm1d, hc]
        · refine ⟨m1, ?_, hm1d⟩
          rcases List.mem_cons.mp hm1 with h | h
          · exact absurd (by rw [h]) hm1d
          · exact h
      rw [scanCells_nonuniform rest (schemaKey d)
        (fun m hm => hall m (List.mem_cons_of_mem _ hm)) hexrest]
  · intro hs hex
    obtain ⟨s, hs⟩ := hs
    cases hcells : Table.cells t with
    | nil =>
      obtain ⟨m, hm, _⟩ := hex
      rw [hcells] at hm
      exact absurd hm (List.not_mem_nil m)
    | cons d rest =>
      rw [Table.renderMode, hcells]
      by_cases h1 : d.length = 1
      · have hne : ¬ d.length ≠ 1 := by rw [h1]; exact fun hc => hc rfl
        have hds : schemaKey d = s :=
          hs d (by rw [hcells]; exact List.mem_cons_self _ _) h1
        have hschem2 : (if schemaKey d ∈ ([] : List String) then ([] : List String)
            else schemaKey d :: []) = [s] := by
          rw [if_neg (List.not_mem_nil (schemaKey d)), hds]
        have hlen1 : ¬ (([s] : List String).length > 1) := by simp
        rw [scanCells_cons, if_neg hne, hschem2, if_neg hlen1]
        have hexrest : ∃ m ∈ rest, m.length ≠ 1 := by
          obtain ⟨m, hm, hms⟩ := hex
          rw [hcells] at hm
          rcases List.mem_cons.mp hm with h | h
          · exact absurd (h ▸ h1) (h ▸ hms)
          · exact ⟨m, h, hms⟩
        rw [scanCells_multi rest s
          (fun m hm hm1 => hs m (by rw [hcells]; exact List.mem_cons_of_mem _ hm) hm1)
          hexrest]
      · rw [scanCells_cons, if_pos h1]

/-- The jobs used to build the C3 counterexample table: every cell gets one
job at TCP/80, and cell (a, a) additionally gets TCP/81. -/
def jrsC3 : List JobResult :=
  [ mkJobResult "a" "a" "TCP" 80 Connectivity.undefined Connectivity.undefined,
    mkJobResult "a" "a" "TCP" 81 Connectivity.undefined Connectivity.undefined,
    mkJobResult "a" "b" "TCP" 80 Connectivity.undefined Connectivity.undefined,
    mkJobResult "b" "a" "TCP" 80 Connectivity.undefined Connectivity.undefined,
    mkJobResult "b" "b" "TCP" 80 Connectivity.undefined Connectivity.undefined ]

def tC3 : Table :=
  (NewTableFromJobResults resAB jrsC3).getD (NewTable resAB.SortedPodNames)

/-- **C3 counterexample.** Adding a second distinct key to just one cell of an
otherwise uniform single-key table does NOT switch the render to non-uniform
mode: the scan breaks at the two-element cell with uniformity still assumed
and the dispatch picks the uniform-multi layout. -/
theorem renderMode_second_key_not_nonuniform :
    NewTableFromJobResults resAB jrsC3 = some tC3 ∧
    (Table.Get tC3 "a" "a").JobResults.map Prod.fst ≠
      (Table.Get tC3 "a" "b").JobResults.map Prod.fst ∧
    Table.renderMode tC3 = RenderMode.uniformMulti ∧
    Table.renderMode tC3 ≠ RenderMode.nonuniform := by
  refine ⟨rfl, by decide, by decide, by decide⟩

/-- Witness for the amended C3: on the C3 counterexample table (one cell with
two keys, all single cells sharing "TCP/80") the dispatch picks uniform-multi;
the hypotheses of the amended theorem hold there. -/
theorem renderMode_dispatch_witness :
    Table.renderMode tC3 = RenderMode.uniformMulti := by
  apply (renderMode_dispatch tC3).2.2
  · exact ⟨"TCP/80", by decide⟩
  · refine ⟨(Table.Get tC3 "a" "a").JobResults, ?_, by decide⟩
    show (Table.Get tC3 "a" "a").JobResults ∈ Table.cells tC3
    decide


/-! ### Result aggregation -/

/-- The total count carried by the bindings of `ps` at key `k`. -/
def keySum (ps : List ((Bool × String) × Nat)) (k : Bool × String) : Nat :=
  (ps.map (fun e => if e.1 = k then e.2 else 0)).sum

theorem countOf_bumpCount (acc : List ((Bool × String) × Nat))
    (k2 k : Bool × String) (c : Nat) :
    countOf (bumpCount acc k2 c) k =
      countOf acc k + (if k2 = k then c else 0) := by
  rw [bumpCount]
  cases hx : lookupKV acc k2 with
  | some old =>
    rw [countOf, lookupKV_map_replace, countOf]
    by_cases h : k2 = k
    · subst h
      rw [if_pos rfl, if_pos rfl, hx]
      rfl
    · rw [if_neg h, if_neg h, Nat.add_zero]
  | none =>
    rw [countOf, lookupKV_append, countOf]
    by_cases h : k2 = k
    · subst h
      rw [hx, if_pos rfl]
      show (match (none : Option Nat) with
        | some v => some v
        | none => lookupKV [(k2, c)] k2).getD 0 = (none : Option Nat).getD 0 + c
      rw [lookupKV_cons, if_pos rfl]
      simp
    · rw [if_neg h, Nat.add_zero]
      cases hy : lookupKV acc k with
      | some v => rfl
      | none =>
        show (lookupKV [(k2, c)] k).getD 0 = (none : Option Nat).getD 0
        rw [lookupKV_cons, if_neg h, lookupKV_nil]

theorem countOf_entries_fold (ps : List ((Bool × String) × Nat)) :
    ∀ (acc : List ((Bool × String) × Nat)) (k : Bool × String),
      countOf (ps.foldl (fun a e => bumpCount a e.1 e.2) acc) k =
        countOf acc k + keySum ps k := by
  induction ps with
  | nil => intro acc k; rw [keySum]; rfl
  | cons p rest ih =>
    intro acc k
    have hks : keySum (p :: rest) k =
        (if p.1 = k then p.2 else 0) + keySum rest k := by
      simp [keySum]
    show countOf (rest.foldl (fun a e => bumpCount a e.1 e.2)
        (bumpCount acc p.1 p.2)) k = _
    rw [ih, countOf_bumpCount, hks]
    omega

theorem countOf_steps_fold (steps : List StepResult) :
    ∀ (acc : List ((Bool × String) × Nat)) (k : Bool × String),
      countOf (steps.foldl (fun acc step =>
          step.LastComparisonCounts.foldl (fun a e => bumpCount a e.1 e.2) acc) acc) k =
        countOf acc k +
          (steps.map (fun step => keySum step.LastComparisonCounts k)).sum := by
  induction steps with
  | nil => intro acc k; rfl
  | cons step rest ih =>
    intro acc k
    show countOf (rest.foldl _
        (step.LastComparisonCounts.foldl (fun a e => bumpCount a e.1 e.2) acc)) k = _
    rw [ih, countOf_entries_fold]
    show countOf acc k + keySum step.LastComparisonCounts k +
        (rest.map (fun step => keySum step.LastComparisonCounts k)).sum =
      countOf acc k + (keySum step.LastComparisonCounts k +
        (rest.map (fun step => keySum step.LastComparisonCounts k)).sum)
    omega

/-- The spec example: two correct tcp jobs (one per step) and one incorrect
udp job. -/
def exampleResult : Result :=
  { Steps :=
      [ { LastComparisonCounts := [((true, "TCP"), 1)],
          StepPassed := fun _ => true },
        { LastComparisonCounts := [((true, "TCP"), 1), ((false, "UDP"), 1)],
          StepPassed := fun _ => false } ] }

/-- **C8.** `Result.ResultsByProtocol` returns a success × protocol map in
which each count is the sum over all steps of that step's last comparison's
per-protocol counts; on the spec example (2 correct tcp jobs, 1 incorrect
udp job) the aggregate is counts[true][tcp] = 2 and counts[false][udp] = 1. -/
theorem resultsByProtocol_sums :
    (∀ (r : Result) (k : Bool × String),
      countOf (Result.ResultsByProtocol r) k =
        (r.Steps.map (fun step => keySum step.LastComparisonCounts k)).sum) ∧
    countOf (Result.ResultsByProtocol exampleResult) (true, "TCP") = 2 ∧
    countOf (Result.ResultsByProtocol exampleResult) (false, "UDP") = 1 := by
  refine ⟨?_, by decide, by decide⟩
  intro r k
  show countOf (r.Steps.foldl _ []) k = _
  rw [countOf_steps_fold]
  simp [countOf, lookupKV]

/-! ### Result pass/fail -/

theorem passedLoop_iff (il : Bool) :
    ∀ steps : List StepResult,
      (passedLoop il steps = true ↔ ∀ s ∈ steps, s.StepPassed il = true) := by
  intro steps
  induction steps with
  | nil => simp [passedLoop]
  | cons step rest ih =>
    rw [passedLoop]
    by_cases h : step.StepPassed il
    · rw [if_pos h, ih]
      constructor
      · intro hall s hs
        rcases List.mem_cons.mp hs with h2 | h2
        · rw [h2]; exact h
        · exact hall s h2
      · intro hall s hs
        exact hall s (List.mem_cons_of_mem _ hs)
    · rw [if_neg h]
      constructor
      · intro hc
        exact absurd hc (by decide)
      · intro hall
        exact absurd (hall step (List.mem_cons_self _ _)) h

/-- **C9.** `Result.Passed(ignoreLoopback)` is true exactly when every step
passes under the same flag; a Result with no steps passes, and a single
failing step makes the whole Result fail. -/
theorem result_passed_iff :
    (∀ (r : Result) (il : Bool),
      (Result.Passed r il = true ↔ ∀ step ∈ r.Steps, step.StepPassed il = true)) ∧
    (∀ il : Bool, Result.Passed { Steps := [] } il = true) ∧
    (∀ (r : Result) (il : Bool) (step : StepResult), step ∈ r.Steps →
      step.StepPassed il = false → Result.Passed r il = false) := by
  refine ⟨?_, ?_, ?_⟩
  · intro r il
    exact passedLoop_iff il r.Steps
  · intro il
    rfl
  · intro r il step hmem hfail
    cases hp : Result.Passed r il with
    | false => rfl
    | true =>
      have := (passedLoop_iff il r.Steps).mp hp step hmem
      rw [hfail] at this
      exact Bool.noConfusion this

/-- Witness for C9: on the spec example result (whose second step fails under
either flag) `Passed` is false; on the empty result it is true. -/
theorem result_passed_iff_witness :
    Result.Passed exampleResult true = false ∧
    Result.Passed { Steps := [] } true = true := by
  constructor
  · exact result_passed_iff.2.2 exampleResult true
      { LastComparisonCounts := [((true, "TCP"), 1), ((false, "UDP"), 1)],
        StepPassed := fun _ => false }
      (List.mem_cons_of_mem _ (List.mem_cons_self _ _)) rfl
  · exact result_passed_iff.2.1 true

end Probe
